import Mathlib

/-
Verification development for the recreation.gov campsite checker
(camping.py).  The availability analyzer, normalizer, month enumeration
and exit-code accumulation are shallowly embedded below; calendar dates
handled by the analyzer are represented by their proleptic-Gregorian
ordinal day numbers (the value of Python date.toordinal), and the
date/ordinal conversions themselves are modelled explicitly further
down for the round-trip property.
-/

/-- Python-style integer range: the list lo, lo + 1, ..., hi - 1. -/
def pyRange (lo hi : Int) : List Int :=
  (List.range (hi - lo).toNat).map (fun k : Nat => lo + (k : Int))

/-- Weekday index of an ordinal day number with Monday = 0, as Python
date.weekday: ordinal 1 (0001-01-01) is a Monday. -/
def weekday (o : Int) : Int := (o - 1) % 7

/-- Candidate days computed by get_num_available_sites (camping.py lines
135-143): for i in range(1, num_days + 1) take end_date - i, then keep
the days whose weekday index is greater than 3 and at most 6.  Dates are
represented by their ordinal day numbers. -/
def candidateDates (startDate endDate : Int) : List Int :=
  let numDays := endDate - startDate
  let dates0 := (pyRange 1 (numDays + 1)).map (fun i => endDate - i)
  dates0.filter (fun d => decide (3 < weekday d) && decide (weekday d ≤ 6))

/-- Test nights in range(1, num_days + 1) from camping.py line 145; a
missing value (Python None) is never in a range. -/
def nightsInRange (numDays : Int) : Option Int → Bool
  | some n => decide (n ∈ pyRange 1 (numDays + 1))
  | none => false

/-- Effective nights (camping.py lines 145-147): when the caller's value
is not in range(1, num_days + 1) it is replaced by num_days. -/
def effectiveNights (numDays : Int) (nights : Option Int) : Int :=
  match nights with
  | some n => if n ∈ pyRange 1 (numDays + 1) then n else numDays
  | none => numDays

/-- Grouping performed by groupby(ordinal_dates, lambda x: x - next(c))
in consecutive_nights (camping.py line 170): two adjacent entries fall in
the same group exactly when the later one is one more than the earlier
one, so the list splits into maximal blocks of adjacent entries each one
more than its predecessor. -/
def splitRuns : List Int → List (List Int)
  | [] => []
  | x :: xs =>
    match splitRuns xs with
    | (y :: ys) :: rest =>
      if y = x + 1 then (x :: y :: ys) :: rest
      else [x] :: (y :: ys) :: rest
    | other => [x] :: other

/-- consecutive_nights (camping.py lines 163-180): count the groups whose
length is at least nights and report whether at least one exists. -/
def consecutiveNights (available : List Int) (nights : Int) : Bool :=
  let groups := splitRuns available
  let ret := groups.countP (fun l => decide (nights ≤ (l.length : Int)))
  decide (0 < ret)

/-- Per-site test of the loop in get_num_available_sites (camping.py
lines 149-157): keep the availabilities that belong to the candidate set
(in their listed order) and require the kept list to be nonempty and
consecutive_nights to hold on it. -/
def siteQualifies (dates : List Int) (nights : Int) (availabilities : List Int) : Bool :=
  let desired := availabilities.filter (fun d => decide (d ∈ dates))
  !desired.isEmpty && consecutiveNights desired nights

/-- get_num_available_sites (camping.py lines 131-160), with date strings
represented by their ordinal day numbers.  Returns the pair
(num_available, maximum). -/
def getNumAvailableSites (parkInformation : List (String × List Int))
    (startDate endDate : Int) (nights : Option Int) : Nat × Nat :=
  let maximum := parkInformation.length
  let numDays := endDate - startDate
  let dates := candidateDates startDate endDate
  let nightsEff := effectiveNights numDays nights
  let numAvailable := parkInformation.countP (fun p => siteQualifies dates nightsEff p.2)
  (numAvailable, maximum)

/-- Grouped-file mode accumulator (camping.py lines 313-324).  One entry
per group: some true when main reported availability, some false when it
reported none, none when it raised (the exception is caught and logged).
The assignment to code happens only when main returns, so a raising
group leaves the accumulator unchanged. -/
def groupedStep (code : Nat) : Option Bool → Nat
  | some true => code + 0
  | some false => code + 1
  | none => code

/-- Exit code of the grouped-file mode: fold groupedStep over the
outcomes of the groups, starting from 0, and exit with the result. -/
def groupedExitCode (results : List (Option Bool)) : Nat :=
  results.foldl groupedStep 0

lemma mem_pyRange {lo hi a : Int} : a ∈ pyRange lo hi ↔ lo ≤ a ∧ a < hi := by
  unfold pyRange
  constructor
  · intro h
    obtain ⟨k, hk, rfl⟩ := List.mem_map.mp h
    rw [List.mem_range] at hk
    omega
  · intro h
    exact List.mem_map.mpr ⟨(a - lo).toNat, List.mem_range.mpr (by omega), by omega⟩

lemma splitRuns_flatten (L : List Int) : (splitRuns L).flatten = L := by
  induction L with
  | nil => rfl
  | cons x xs ih =>
    simp only [splitRuns]
    cases h : splitRuns xs with
    | nil =>
      rw [h] at ih
      simp only [List.flatten_nil] at ih
      simp [← ih]
    | cons hd tl =>
      rw [h] at ih
      cases hd with
      | nil =>
        simp only [List.flatten_cons, List.nil_append] at ih
        simp [← ih]
      | cons y ys =>
        by_cases hy : y = x + 1
        · simp only [if_pos hy, List.flatten_cons] at *
          simp [← ih]
        · simp only [if_neg hy, List.flatten_cons] at *
          simp [← ih]

lemma splitRuns_runs (L : List Int) :
    ∀ l ∈ splitRuns L, l ≠ [] ∧ List.Chain' (fun a b => b = a + 1) l := by
  induction L with
  | nil => intro l hl; simp [splitRuns] at hl
  | cons x xs ih =>
    intro l hl
    simp only [splitRuns] at hl
    cases h : splitRuns xs with
    | nil =>
      rw [h] at hl
      simp at hl
      subst hl
      exact ⟨by simp, by simp⟩
    | cons hd tl =>
      rw [h] at hl
      cases hd with
      | nil =>
        rcases List.mem_cons.mp hl with h1 | h2
        · subst h1; exact ⟨by simp, by simp⟩
        · rcases List.mem_cons.mp h2 with h3 | h4
          · subst h3
            have := ih [] (by rw [h]; exact List.mem_cons_self _ _)
            exact absurd rfl this.1
          · exact ih l (by rw [h]; exact List.mem_cons_of_mem _ h4)
      | cons y ys =>
        have hl' : l ∈ (if y = x + 1 then (x :: y :: ys) :: tl else [x] :: (y :: ys) :: tl) := hl
        by_cases hy : y = x + 1
        · rw [if_pos hy] at hl'
          rcases List.mem_cons.mp hl' with h1 | h2
          · subst h1
            have hyc := ih (y :: ys) (by rw [h]; exact List.mem_cons_self _ _)
            refine ⟨by simp, ?_⟩
            rw [List.chain'_cons]
            exact ⟨hy, hyc.2⟩
          · exact ih l (by rw [h]; exact List.mem_cons_of_mem _ h2)
        · rw [if_neg hy] at hl'
          rcases List.mem_cons.mp hl' with h1 | h2
          · subst h1; exact ⟨by simp, by simp⟩
          · rcases List.mem_cons.mp h2 with h3 | h4
            · subst h3
              exact ih (y :: ys) (by rw [h]; exact List.mem_cons_self _ _)
            · exact ih l (by rw [h]; exact List.mem_cons_of_mem _ h4)

lemma chain_head_add {l : List Int} (hne : l ≠ []) (hc : List.Chain' (fun a b => b = a + 1) l) :
    ∀ i : Nat, i < l.length → l.head hne + (i : Int) ∈ l := by
  induction l with
  | nil => exact absurd rfl hne
  | cons x xs ih =>
    intro i hi
    cases i with
    | zero => simp
    | succ j =>
      cases xs with
      | nil => simp at hi
      | cons y ys =>
        rw [List.chain'_cons] at hc
        have hy : y = x + 1 := hc.1
        have hmem := ih (by simp) hc.2 j (by simpa using hi)
        simp only [List.head_cons] at hmem
        have heq : x + ((j + 1 : Nat) : Int) = y + (j : Int) := by rw [hy]; push_cast; ring
        rw [List.head_cons, heq]
        exact List.mem_cons_of_mem _ hmem

lemma consecutiveNights_iff (a : List Int) (n : Int) :
    consecutiveNights a n = true ↔ ∃ l ∈ splitRuns a, n ≤ (l.length : Int) := by
  simp only [consecutiveNights, decide_eq_true_eq, List.countP_pos_iff]

lemma siteQualifies_iff (dates : List Int) (nights : Int) (avail : List Int) :
    siteQualifies dates nights avail = true ↔
      (avail.filter (fun d => decide (d ∈ dates)) ≠ [] ∧
        ∃ l ∈ splitRuns (avail.filter (fun d => decide (d ∈ dates))),
          nights ≤ (l.length : Int)) := by
  simp only [siteQualifies, Bool.and_eq_true, Bool.not_eq_true', List.isEmpty_eq_false,
    consecutiveNights_iff]

/-- C1 (amended): a day is in the candidate set exactly when it lies in
[startDate, endDate) — including the start day and excluding the end day
— and its weekday index (Monday = 0) is 4, 5 or 6. -/
theorem candidateDates_mem_iff_C1 (s e d : Int) :
    d ∈ candidateDates s e ↔
      s ≤ d ∧ d < e ∧ (weekday d = 4 ∨ weekday d = 5 ∨ weekday d = 6) := by
  simp only [candidateDates, weekday]
  constructor
  · intro h
    obtain ⟨hmem, hw⟩ := List.mem_filter.mp h
    obtain ⟨i, hi, rfl⟩ := List.mem_map.mp hmem
    rw [mem_pyRange] at hi
    simp only [weekday, Bool.and_eq_true, decide_eq_true_eq] at hw
    refine ⟨by omega, by omega, by omega⟩
  · rintro ⟨h1, h2, h3⟩
    refine List.mem_filter.mpr
      ⟨List.mem_map.mpr ⟨e - d, mem_pyRange.mpr ⟨by omega, by omega⟩, by omega⟩, ?_⟩
    simp only [weekday, Bool.and_eq_true, decide_eq_true_eq]
    omega

/-- C1 counterexample: with startDate 739043 (2024-06-06, a Thursday) and
endDate 739045 (2024-06-08, a Saturday), the end day itself is a Saturday
lying in (startDate, endDate] yet is not a candidate day, while the claimed
set (startDate, endDate] restricted to weekday 4..6 contains it: the
computed set is [startDate, endDate) so restricted, not (startDate, endDate]. -/
theorem candidateDates_counterexample_C1 :
    739043 < (739045 : Int) ∧ (739045 : Int) ≤ 739045 ∧ weekday 739045 = 5 ∧
      (739045 : Int) ∉ candidateDates 739043 739045 ∧
      candidateDates 739043 739045 = [739044] := by
  decide

/-- C9: the analyzer returns the pair (count of sites passing the
per-site test, size of the input map); the second component equals the
input length regardless of qualification, and the empty availability map
yields (0, 0). -/
theorem getNumAvailableSites_shape_C9 (park : List (String × List Int))
    (s e : Int) (nights : Option Int) :
    getNumAvailableSites park s e nights =
      (park.countP (fun p =>
        siteQualifies (candidateDates s e) (effectiveNights (e - s) nights) p.2),
       park.length) ∧
    getNumAvailableSites [] s e nights = (0, 0) := by
  exact ⟨rfl, rfl⟩

/-- C4: whenever the caller's nights value is absent or not in
range(1, num_days + 1), the analyzer computes with the full span length
endDate - startDate instead: the effective value is the span length, and
the result is the same as if the caller had passed the span length. -/
theorem effectiveNights_default_C4 (park : List (String × List Int))
    (s e : Int) (nights : Option Int)
    (h : nightsInRange (e - s) nights = false) :
    effectiveNights (e - s) nights = e - s ∧
      getNumAvailableSites park s e nights = getNumAvailableSites park s e (some (e - s)) := by
  have h1 : effectiveNights (e - s) nights = e - s := by
    match nights with
    | none => rfl
    | some n =>
      simp only [nightsInRange, decide_eq_false_iff_not] at h
      simp only [effectiveNights, if_neg h]
  have h2 : effectiveNights (e - s) (some (e - s)) = e - s := by
    simp only [effectiveNights]
    split <;> rfl
  refine ⟨h1, ?_⟩
  simp only [getNumAvailableSites, h1, h2]

theorem effectiveNights_default_C4_witness :
    nightsInRange ((4 : Int) - 0) (some 100) = false ∧
      (effectiveNights ((4 : Int) - 0) (some 100) = 4 - 0 ∧
        getNumAvailableSites [] 0 4 (some 100) = getNumAvailableSites [] 0 4 (some (4 - 0))) :=
  ⟨by decide, effectiveNights_default_C4 [] 0 4 (some 100) (by decide)⟩

/-- C5 counterexample: a single group whose processing raises (outcome
none) yields exit code 0, not the claimed failure count 1: the exception
is caught and logged but the accumulator is never incremented for it. -/
theorem groupedExitCode_counterexample_C5 :
    groupedExitCode [none] = 0 ∧
      [(none : Option Bool)].countP (fun r => decide (r ≠ some true)) = 1 := by
  decide

/-- C5 (amended): the grouped-file exit code equals the number of groups
that completed and reported no availability; a group that raises is
caught and logged without incrementing the count, and processing of the
remaining groups continues. -/
theorem groupedExitCode_spec_C5 (results : List (Option Bool)) :
    groupedExitCode results = results.countP (fun r => decide (r = some false)) := by
  have general : ∀ (rs : List (Option Bool)) (c : Nat),
      rs.foldl groupedStep c = c + rs.countP (fun r => decide (r = some false)) := by
    intro rs
    induction rs with
    | nil => intro c; simp
    | cons r rs ih =>
      intro c
      rw [List.foldl_cons, ih, List.countP_cons]
      cases r with
      | none => simp [groupedStep]
      | some b =>
        cases b
        · simp [groupedStep]
          omega
        · simp [groupedStep]
  simpa [groupedExitCode] using general results 0

/-- C2 counterexample: over the range 2024-06-01 (ordinal 739038) to
2024-06-10 (ordinal 739047) with nights 2, a site listing Saturday
2024-06-08 (739045) before Friday 2024-06-07 (739044) is not counted,
while the same two dates listed in ascending order are counted: the
qualification result is not independent of the order in which the site's
available dates are listed, because consecutive_nights never sorts the
ordinals. -/
theorem order_dependent_counterexample_C2 :
    (getNumAvailableSites [("A", [739045, 739044])] 739038 739047 (some 2)).1 = 0 ∧
      (getNumAvailableSites [("A", [739044, 739045])] 739038 739047 (some 2)).1 = 1 := by
  decide

/-- C2 (amended): a site qualifies exactly when its availability list,
filtered to the candidate days and kept in the listed order (no
sorting), is nonempty and splits into maximal blocks of adjacent
entries each one more than the previous, one of which has length at
least nights; the blocks concatenate back to the filtered list, and each
block is a nonempty ascending chain of consecutive ordinals, so each
reported option is in ascending date order.  Qualification depends on
the listed order in general (see the counterexample). -/
theorem siteQualifies_runs_spec_C2 (dates : List Int) (nights : Int) (avail : List Int) :
    (siteQualifies dates nights avail = true ↔
      (avail.filter (fun d => decide (d ∈ dates)) ≠ [] ∧
        ∃ l ∈ splitRuns (avail.filter (fun d => decide (d ∈ dates))),
          nights ≤ (l.length : Int))) ∧
    (splitRuns (avail.filter (fun d => decide (d ∈ dates)))).flatten
        = avail.filter (fun d => decide (d ∈ dates)) ∧
    ∀ l ∈ splitRuns (avail.filter (fun d => decide (d ∈ dates))),
      l ≠ [] ∧ List.Chain' (fun a b => b = a + 1) l :=
  ⟨siteQualifies_iff dates nights avail, splitRuns_flatten _, splitRuns_runs _⟩

lemma exists_seq_not_mem (L : List Int) (f : Nat → Int) (hinj : Function.Injective f) :
    ∃ j : Nat, f j ∉ L := by
  by_contra hall
  push_neg at hall
  have hbound : ∀ n : Nat, n ≤ L.length := by
    intro n
    have hsub : ((Finset.range n).image f) ⊆ L.toFinset := by
      intro a ha
      obtain ⟨j, hj, rfl⟩ := Finset.mem_image.mp ha
      exact List.mem_toFinset.mpr (hall j)
    have hcard : ((Finset.range n).image f).card = n := by
      rw [Finset.card_image_of_injective _ hinj, Finset.card_range]
    calc n = ((Finset.range n).image f).card := hcard.symm
      _ ≤ L.toFinset.card := Finset.card_le_card hsub
      _ ≤ L.length := List.toFinset_card_le L
  have := hbound (L.length + 1)
  omega

/-- MaximalRun L a k: the k consecutive ordinals starting at a all occur
among the entries of L while a - 1 and a + k do not: a maximal
consecutive run, of length k, of the set of entries of L. -/
def MaximalRun (L : List Int) (a : Int) (k : Nat) : Prop :=
  0 < k ∧ (∀ i : Nat, i < k → a + (i : Int) ∈ L) ∧ (a - 1) ∉ L ∧ (a + (k : Int)) ∉ L

lemma run_to_maximal (desired : List Int) (nights : Int) (l : List Int)
    (hlmem : l ∈ splitRuns desired) (hlen : nights ≤ (l.length : Int)) :
    ∃ a k, MaximalRun desired a k ∧ nights ≤ (k : Int) := by
  obtain ⟨hlne, hlchain⟩ := splitRuns_runs desired l hlmem
  have hlpos : 0 < l.length := List.length_pos.mpr hlne
  set x := l.head hlne with hx
  have hsubL : ∀ b ∈ l, b ∈ desired := by
    intro b hb
    rw [← splitRuns_flatten desired]
    exact List.mem_flatten.mpr ⟨l, hlmem, hb⟩
  have hxL : ∀ i : Nat, i < l.length → x + (i : Int) ∈ desired :=
    fun i hi => hsubL _ (chain_head_add hlne hlchain i hi)
  have hxmem : x ∈ desired := by
    have := hxL 0 hlpos
    simpa using this
  have hdown : ∃ j : Nat, x - (j : Int) ∉ desired := by
    apply exists_seq_not_mem desired (fun j : Nat => x - (j : Int))
    intro a b hab
    simp only at hab
    omega
  have hj0 : x - ((Nat.find hdown : Nat) : Int) ∉ desired := Nat.find_spec hdown
  have hj0min : ∀ i : Nat, i < Nat.find hdown → x - (i : Int) ∈ desired := by
    intro i hi
    have := Nat.find_min hdown hi
    exact not_not.mp this
  have hj0pos : 0 < Nat.find hdown := by
    by_contra h0
    have : Nat.find hdown = 0 := by omega
    rw [this] at hj0
    simp at hj0
    exact hj0 hxmem
  set y := x + ((l.length - 1 : Nat) : Int) with hy
  have hymem : y ∈ desired := hxL (l.length - 1) (by omega)
  have hup : ∃ j : Nat, y + (j : Int) ∉ desired := by
    apply exists_seq_not_mem desired (fun j : Nat => y + (j : Int))
    intro a b hab
    simp only at hab
    omega
  have hj1 : y + ((Nat.find hup : Nat) : Int) ∉ desired := Nat.find_spec hup
  have hj1min : ∀ i : Nat, i < Nat.find hup → y + (i : Int) ∈ desired := by
    intro i hi
    have := Nat.find_min hup hi
    exact not_not.mp this
  have hj1pos : 0 < Nat.find hup := by
    by_contra h0
    have : Nat.find hup = 0 := by omega
    rw [this] at hj1
    simp at hj1
    exact hj1 hymem
  refine ⟨x - ((Nat.find hdown - 1 : Nat) : Int),
    (Nat.find hdown - 1) + l.length + (Nat.find hup - 1), ?_, ?_⟩
  · refine ⟨by omega, ?_, ?_, ?_⟩
    · intro i hik
      by_cases hc1 : i ≤ Nat.find hdown - 1
      · have heq : x - ((Nat.find hdown - 1 : Nat) : Int) + (i : Int)
            = x - ((Nat.find hdown - 1 - i : Nat) : Int) := by omega
        rw [heq]
        exact hj0min _ (by omega)
      · by_cases hc2 : i < Nat.find hdown - 1 + l.length
        · have heq : x - ((Nat.find hdown - 1 : Nat) : Int) + (i : Int)
              = x + ((i - (Nat.find hdown - 1) : Nat) : Int) := by omega
          rw [heq]
          exact hxL _ (by omega)
        · have heq : x - ((Nat.find hdown - 1 : Nat) : Int) + (i : Int)
              = y + ((i - (Nat.find hdown - 1) - (l.length - 1) : Nat) : Int) := by
            omega
          rw [heq]
          exact hj1min _ (by omega)
    · have heq : x - ((Nat.find hdown - 1 : Nat) : Int) - 1
          = x - ((Nat.find hdown : Nat) : Int) := by omega
      rw [heq]
      exact hj0
    · have heq : x - ((Nat.find hdown - 1 : Nat) : Int)
          + (((Nat.find hdown - 1) + l.length + (Nat.find hup - 1) : Nat) : Int)
          = y + ((Nat.find hup : Nat) : Int) := by
        omega
      rw [heq]
      exact hj1
  · omega

/-- C3: soundness of qualification.  For every availability map, start
date, end date and nights value, a site whose per-site test succeeds has,
within its filtered availability list, a maximal consecutive run of
length at least the effective nights value; contrapositively, no site
all of whose maximal runs are strictly shorter than the effective nights
value is ever counted. -/
theorem counted_site_has_maximal_run_C3
    (park : List (String × List Int)) (s e : Int) (nights : Option Int)
    (site : String) (avail : List Int)
    (_hmem : (site, avail) ∈ park)
    (hq : siteQualifies (candidateDates s e) (effectiveNights (e - s) nights) avail = true) :
    ∃ a k,
      MaximalRun (avail.filter (fun d => decide (d ∈ candidateDates s e))) a k ∧
        effectiveNights (e - s) nights ≤ (k : Int) := by
  obtain ⟨hne, l, hlmem, hlen⟩ := (siteQualifies_iff _ _ _).mp hq
  exact run_to_maximal _ _ l hlmem hlen

theorem counted_site_has_maximal_run_C3_witness :
    ((("A" : String), ([739044, 739045] : List Int)) ∈
        ([("A", [739044, 739045])] : List (String × List Int)) ∧
      siteQualifies (candidateDates 739038 739047)
        (effectiveNights (739047 - 739038) (some 2)) [739044, 739045] = true) ∧
    ∃ a k,
      MaximalRun ([739044, 739045].filter
        (fun d => decide (d ∈ candidateDates 739038 739047))) a k ∧
        effectiveNights (739047 - 739038) (some 2) ≤ (k : Int) :=
  ⟨⟨by decide, by decide⟩,
    counted_site_has_maximal_run_C3 [("A", [739044, 739045])] 739038 739047 (some 2)
      "A" [739044, 739045] (by decide) (by decide)⟩

/-- Per-site month payload from the availability endpoint: a declared
campsite_type and a map (association list) date string to status string,
as consumed by get_park_information (camping.py lines 106-120). -/
structure Campsite where
  campsite_type : String
  availabilities : List (String × String)
deriving DecidableEq

/-- Month payload: the campsites map of one month response. -/
structure MonthData where
  campsites : List (String × Campsite)
deriving DecidableEq

/-- Truthiness-guarded type test of camping.py line 113: the date is kept
unless campsite_type is truthy (a nonempty string) and differs from the
site's declared type.  The filter is an optional string; Python None and
the empty string are both falsy. -/
def typeOk (filt : Option String) (ctype : String) : Bool :=
  match filt with
  | none => true
  | some f => if f = "" then true else f == ctype

/-- Per-date test of camping.py lines 110-115: keep a (date, status)
entry when the status equals Available and the type test passes. -/
def keepDate (filt : Option String) (ctype : String) (entry : String × String) : Bool :=
  entry.2 == "Available" && typeOk filt ctype

/-- Dates collected into the available list for one campsite of one
month payload (camping.py lines 109-115). -/
def availableDates (filt : Option String) (c : Campsite) : List String :=
  (c.availabilities.filter (keepDate filt c.campsite_type)).map Prod.fst

/-- Dict update data.setdefault(campsite_id, []) += available of
camping.py lines 117-118, on an insertion-ordered association list. -/
def appendEntry (data : List (String × List String)) (k : String) (v : List String) :
    List (String × List String) :=
  match data with
  | [] => [(k, v)]
  | (k2, vs) :: rest => if k2 = k then (k2, vs ++ v) :: rest else (k2, vs) :: appendEntry rest k v

/-- Processing of one month payload by the collapsing loop of
get_park_information (camping.py lines 107-118): sites whose available
list is empty are skipped. -/
def collapseMonth (filt : Option String) (data : List (String × List String))
    (m : MonthData) : List (String × List String) :=
  m.campsites.foldl
    (fun data p =>
      let available := availableDates filt p.2
      if available.isEmpty then data else appendEntry data p.1 available)
    data

/-- Normalizer of get_park_information (camping.py lines 104-120): merge
the month payloads into one site to available-dates mapping. -/
def getParkInformation (apiData : List MonthData) (filt : Option String) :
    List (String × List String) :=
  apiData.foldl (collapseMonth filt) []

/-- Default value of the campsite_type parameter of get_park_information
(camping.py line 67). -/
def defaultCampsiteType : String := "STANDARD NONELECTRIC"

/-- GoodDate apiData filt site d: some month payload declares the date d
as Available for site under a campsite type matched by the filter
(exactly, whenever the filter is a nonempty string). -/
def GoodDate (apiData : List MonthData) (filt : Option String) (site d : String) : Prop :=
  ∃ m ∈ apiData, ∃ c : Campsite, (site, c) ∈ m.campsites ∧
    (d, "Available") ∈ c.availabilities ∧
    ∀ f : String, filt = some f → f ≠ "" → f = c.campsite_type

/-- DataOk: every entry of the accumulated mapping has a nonempty date
list all of whose dates are justified by some month payload. -/
def DataOk (apiData : List MonthData) (filt : Option String)
    (data : List (String × List String)) : Prop :=
  ∀ site dates, (site, dates) ∈ data → dates ≠ [] ∧ ∀ d ∈ dates, GoodDate apiData filt site d

lemma availableDates_sound (filt : Option String) (c : Campsite) (d : String)
    (hd : d ∈ availableDates filt c) :
    (d, "Available") ∈ c.availabilities ∧
      ∀ f : String, filt = some f → f ≠ "" → f = c.campsite_type := by
  unfold availableDates at hd
  obtain ⟨entry, hp, hfst⟩ := List.mem_map.mp hd
  obtain ⟨hpmem, hkeep⟩ := List.mem_filter.mp hp
  obtain ⟨d2, st⟩ := entry
  simp only at hfst
  subst hfst
  simp only [keepDate, Bool.and_eq_true, beq_iff_eq] at hkeep
  obtain ⟨hst, hty⟩ := hkeep
  subst hst
  refine ⟨hpmem, ?_⟩
  intro f hf hne
  rw [hf] at hty
  simp only [typeOk] at hty
  rw [if_neg hne] at hty
  exact beq_iff_eq.mp hty

lemma mem_appendEntry (data : List (String × List String)) (k : String) (v : List String)
    (site : String) (dates : List String)
    (h : (site, dates) ∈ appendEntry data k v) :
    (site, dates) ∈ data ∨
      (site = k ∧ (dates = v ∨ ∃ vs, (site, vs) ∈ data ∧ dates = vs ++ v)) := by
  induction data with
  | nil =>
    simp only [appendEntry, List.mem_singleton, Prod.mk.injEq] at h
    exact Or.inr ⟨h.1, Or.inl h.2⟩
  | cons p rest ih =>
    obtain ⟨k2, vs⟩ := p
    simp only [appendEntry] at h
    by_cases hk : k2 = k
    · rw [if_pos hk] at h
      rcases List.mem_cons.mp h with h1 | h2
      · rw [Prod.mk.injEq] at h1
        obtain ⟨hs, hd⟩ := h1
        subst hs
        exact Or.inr ⟨hk, Or.inr ⟨vs, List.mem_cons_self _ _, hd⟩⟩
      · exact Or.inl (List.mem_cons_of_mem _ h2)
    · rw [if_neg hk] at h
      rcases List.mem_cons.mp h with h1 | h2
      · exact Or.inl (by rw [h1]; exact List.mem_cons_self _ _)
      · rcases ih h2 with ha | ⟨hs, hb⟩
        · exact Or.inl (List.mem_cons_of_mem _ ha)
        · refine Or.inr ⟨hs, ?_⟩
          rcases hb with hb1 | ⟨vs2, hvs2, hd⟩
          · exact Or.inl hb1
          · exact Or.inr ⟨vs2, List.mem_cons_of_mem _ hvs2, hd⟩

lemma collapseMonth_ok (apiData : List MonthData) (filt : Option String)
    (m : MonthData) (hm : m ∈ apiData) :
    ∀ data, DataOk apiData filt data → DataOk apiData filt (collapseMonth filt data m) := by
  unfold collapseMonth
  have general : ∀ cs : List (String × Campsite), (∀ p ∈ cs, p ∈ m.campsites) →
      ∀ data, DataOk apiData filt data →
        DataOk apiData filt
          (cs.foldl
            (fun data p =>
              let available := availableDates filt p.2
              if available.isEmpty then data else appendEntry data p.1 available)
            data) := by
    intro cs
    induction cs with
    | nil => intro _ data h; exact h
    | cons p ps ih =>
      intro hps data hdata
      rw [List.foldl_cons]
      apply ih (fun q hq => hps q (List.mem_cons_of_mem _ hq))
      simp only
      by_cases he : (availableDates filt p.2).isEmpty
      · rw [if_pos he]; exact hdata
      · rw [if_neg he]
        intro site dates hmem
        rcases mem_appendEntry _ _ _ _ _ hmem with hold | ⟨hs, hnew⟩
        · exact hdata site dates hold
        · have hvne : availableDates filt p.2 ≠ [] := by
            intro hnil
            rw [hnil] at he
            exact he rfl
          have hgood : ∀ d ∈ availableDates filt p.2, GoodDate apiData filt site d := by
            intro d hd
            obtain ⟨hav, hty⟩ := availableDates_sound filt p.2 d hd
            refine ⟨m, hm, p.2, ?_, hav, hty⟩
            rw [hs]
            have hpair : (p.1, p.2) = p := rfl
            rw [hpair]
            exact hps p (List.mem_cons_self _ _)
          rcases hnew with hd1 | ⟨vs, hvs, hd2⟩
          · subst hd1
            exact ⟨hvne, hgood⟩
          · subst hd2
            obtain ⟨hvsne, hvsgood⟩ := hdata site vs hvs
            refine ⟨by simp [hvsne], ?_⟩
            intro d hd
            rcases List.mem_append.mp hd with h1 | h2
            · exact hvsgood d h1
            · exact hgood d h2
  exact general m.campsites (fun p hp => hp)

lemma getParkInformation_ok (apiData : List MonthData) (filt : Option String) :
    DataOk apiData filt (getParkInformation apiData filt) := by
  unfold getParkInformation
  have general : ∀ ms : List MonthData, (∀ m ∈ ms, m ∈ apiData) →
      ∀ data, DataOk apiData filt data →
        DataOk apiData filt (ms.foldl (collapseMonth filt) data) := by
    intro ms
    induction ms with
    | nil => intro _ data h; exact h
    | cons m ms ih =>
      intro hms data hdata
      rw [List.foldl_cons]
      exact ih (fun q hq => hms q (List.mem_cons_of_mem _ hq))
        _ (collapseMonth_ok apiData filt m (hms m (List.mem_cons_self _ _)) data hdata)
  exact general apiData (fun m hm => hm) [] (by intro site dates h; simp at h)

/-- C6: normalizer filtering soundness.  Every entry of the merged
output has a nonempty date list, and each listed date is justified by
some month payload that declares it Available for that site, under a
campsite type equal to the filter whenever a nonempty filter string is
supplied; in particular sites with no surviving date are absent. -/
theorem normalizer_filter_sound_C6 (apiData : List MonthData) (filt : Option String)
    (site : String) (dates : List String)
    (hmem : (site, dates) ∈ getParkInformation apiData filt) :
    dates ≠ [] ∧ ∀ d ∈ dates, GoodDate apiData filt site d :=
  getParkInformation_ok apiData filt site dates hmem

/-- Concrete one-month payload used by the C6 witness. -/
def month1 : MonthData :=
  ⟨[(("A"), ⟨"STANDARD NONELECTRIC",
    [("2024-06-07T00:00:00Z", "Available"), ("2024-06-08T00:00:00Z", "Reserved")]⟩)]⟩

theorem normalizer_filter_sound_C6_witness :
    ((("A"), ["2024-06-07T00:00:00Z"]) ∈ getParkInformation [month1] none) ∧
      (["2024-06-07T00:00:00Z"] ≠ [] ∧
        ∀ d ∈ ["2024-06-07T00:00:00Z"], GoodDate [month1] none ("A") d) :=
  ⟨by decide,
    normalizer_filter_sound_C6 [month1] none ("A") ["2024-06-07T00:00:00Z"] (by decide)⟩

/-- C10: when the campsite_type argument is None or the empty string (both
falsy in Python), no type-based filtering is applied and a date
contributes exactly when its status equals Available; and the parameter's
default value is the string STANDARD NONELECTRIC. -/
theorem no_type_filter_when_falsy_C10 :
    (∀ c : Campsite, availableDates none c
        = (c.availabilities.filter (fun entry => entry.2 == "Available")).map Prod.fst) ∧
    (∀ c : Campsite, availableDates (some "") c
        = (c.availabilities.filter (fun entry => entry.2 == "Available")).map Prod.fst) ∧
    defaultCampsiteType = "STANDARD NONELECTRIC" := by
  refine ⟨?_, ?_, rfl⟩
  · intro c
    unfold availableDates
    congr 1
    apply List.filter_congr
    intro entry _
    simp [keepDate, typeOk]
  · intro c
    unfold availableDates
    congr 1
    apply List.filter_congr
    intro entry _
    simp [keepDate, typeOk]

/-- Calendar date (year, month, day) as handled by the fetcher and the
date/ordinal conversions. -/
structure Date where
  year : Nat
  month : Nat
  day : Nat
deriving DecidableEq

/-- Date comparison used by the rrule until bound: lexicographic on
(year, month, day); the generated month dates carry a midnight time, so
the time component never affects the comparison. -/
def dateLeb (a b : Date) : Bool :=
  (a.year < b.year) ||
    (a.year == b.year &&
      ((a.month < b.month) || (a.month == b.month && a.day ≤ b.day)))

/-- Index of a date's month on the infinite month axis: year * 12 plus
the zero-based month. -/
def monthIdx (d : Date) : Nat := d.year * 12 + (d.month - 1)

/-- First day of the month with the given index. -/
def firstOfMonth (idx : Nat) : Date := ⟨idx / 12, idx % 12 + 1, 1⟩

/-- Continuation test of the rrule enumeration: the first of the month
with the given index is at most the until date. -/
def firstLE (idx : Nat) (untilD : Date) : Bool := dateLeb (firstOfMonth idx) untilD

lemma firstLE_bound {idx : Nat} {u : Date} (h : firstLE idx u = true) :
    idx < 12 * u.year + 12 := by
  simp only [firstLE, dateLeb, firstOfMonth, Bool.or_eq_true, Bool.and_eq_true,
    decide_eq_true_eq, beq_iff_eq] at h
  omega

/-- Month enumeration of rrule.rrule(MONTHLY, dtstart, until) as used at
camping.py line 92: starting from the dtstart month index, keep
generating successive first-of-month dates while they are at most the
until date. -/
def rruleMonthly (idx : Nat) (untilD : Date) : List Nat :=
  if h : firstLE idx untilD = true then idx :: rruleMonthly (idx + 1) untilD
  else []
termination_by 12 * untilD.year + 12 - idx
decreasing_by
  have := firstLE_bound h
  omega

/-- Months queried by get_park_information (camping.py lines 90-102):
one request is issued per generated first-of-month date, starting from
datetime(start_date.year, start_date.month, 1). -/
def fetchMonths (s e : Date) : List Date :=
  (rruleMonthly (monthIdx s) e).map firstOfMonth

lemma firstLE_iff {idx : Nat} {u : Date} (h1 : 1 ≤ u.month) (h2 : u.month ≤ 12)
    (h3 : 1 ≤ u.day) : firstLE idx u = true ↔ idx ≤ monthIdx u := by
  simp only [firstLE, dateLeb, firstOfMonth, monthIdx, Bool.or_eq_true, Bool.and_eq_true,
    decide_eq_true_eq, beq_iff_eq]
  omega

lemma rruleMonthly_eq (u : Date) (h1 : 1 ≤ u.month) (h2 : u.month ≤ 12) (h3 : 1 ≤ u.day) :
    ∀ idx, rruleMonthly idx u
      = (List.range (monthIdx u + 1 - idx)).map (fun k : Nat => idx + k) := by
  intro idx
  generalize hn : monthIdx u + 1 - idx = n
  induction n generalizing idx with
  | zero =>
    rw [rruleMonthly]
    rw [dif_neg]
    · simp
    · rw [Bool.not_eq_true, ← Bool.not_eq_true, firstLE_iff h1 h2 h3]
      omega
  | succ k ih =>
    rw [rruleMonthly]
    rw [dif_pos]
    · rw [ih (idx + 1) (by omega)]
      rw [List.range_succ_eq_map]
      simp only [List.map_cons, List.map_map, Nat.add_zero]
      congr 1
      apply List.map_congr_left
      intro j _
      simp [Function.comp]
      omega
    · rw [firstLE_iff h1 h2 h3]
      omega

/-- C7: month enumeration.  For every start and end date with valid
month fields, end day at least 1 and start at most end, the fetcher
issues exactly one availability request per first-of-month date from the
start date's month through the end date's month inclusive. -/
theorem fetchMonths_eq_month_range_C7 (s e : Date)
    (hs1 : 1 ≤ s.month) (hs2 : s.month ≤ 12)
    (he1 : 1 ≤ e.month) (he2 : e.month ≤ 12) (he3 : 1 ≤ e.day)
    (hle : dateLeb s e = true) :
    fetchMonths s e
      = (List.range (monthIdx e - monthIdx s + 1)).map
          (fun k : Nat => firstOfMonth (monthIdx s + k)) := by
  have hidx : monthIdx s ≤ monthIdx e := by
    simp only [dateLeb, Bool.or_eq_true, Bool.and_eq_true, decide_eq_true_eq,
      beq_iff_eq] at hle
    simp only [monthIdx]
    omega
  unfold fetchMonths
  rw [rruleMonthly_eq e he1 he2 he3 (monthIdx s)]
  have heq : monthIdx e + 1 - monthIdx s = monthIdx e - monthIdx s + 1 := by omega
  rw [heq, List.map_map]
  rfl

theorem fetchMonths_eq_month_range_C7_witness :
    (1 ≤ (⟨2024, 6, 25⟩ : Date).month ∧ dateLeb ⟨2024, 6, 25⟩ ⟨2024, 7, 5⟩ = true) ∧
      fetchMonths ⟨2024, 6, 25⟩ ⟨2024, 7, 5⟩ = [⟨2024, 6, 1⟩, ⟨2024, 7, 1⟩] :=
  ⟨⟨by decide, by decide⟩,
    (fetchMonths_eq_month_range_C7 ⟨2024, 6, 25⟩ ⟨2024, 7, 5⟩ (by decide) (by decide)
      (by decide) (by decide) (by decide) (by decide)).trans (by decide)⟩

/-- Leap year test of the proleptic Gregorian calendar, as Python
calendar.isleap: divisible by 4 and not by 100, or divisible by 400. -/
def isLeap (y : Nat) : Bool := (y % 4 == 0 && y % 100 != 0) || y % 400 == 0

/-- Number of days of month m of year y. -/
def daysInMonth (y m : Nat) : Nat :=
  if m = 2 then (if isLeap y then 29 else 28)
  else if m = 4 ∨ m = 6 ∨ m = 9 ∨ m = 11 then 30
  else 31

/-- Number of days of year y. -/
def daysInYear (y : Nat) : Nat := if isLeap y then 366 else 365

/-- Days before January 1 of year y, counted from 0001-01-01; the closed
form used by Python datetime internals. -/
def daysBeforeYear (y : Nat) : Nat :=
  (y - 1) * 365 + (y - 1) / 4 - (y - 1) / 100 + (y - 1) / 400

/-- Days of year y before the first of month m. -/
def daysBeforeMonth (y : Nat) : Nat → Nat
  | 0 => 0
  | 1 => 0
  | m + 2 => daysBeforeMonth y (m + 1) + daysInMonth y (m + 1)

/-- Python date.toordinal: the proleptic Gregorian ordinal of a date,
with 0001-01-01 mapped to 1.  This is the conversion applied by
consecutive_nights (camping.py line 167) after strptime. -/
def toordinal (d : Date) : Nat :=
  daysBeforeYear d.year + daysBeforeMonth d.year d.month + d.day

/-- Month search of the ordinal-to-date conversion: starting at month m
with n remaining zero-based days, step over whole months. -/
def findMonth (y m n : Nat) : Nat × Nat :=
  if 12 ≤ m then (m, n + 1)
  else if n < daysInMonth y m then (m, n + 1)
  else findMonth y (m + 1) (n - daysInMonth y m)
termination_by 12 - m

/-- Year search of the ordinal-to-date conversion: starting at year y
with n remaining zero-based days, step over whole years. -/
def findYear (y n : Nat) : Date :=
  if n < daysInYear y then ⟨y, (findMonth y 1 n).1, (findMonth y 1 n).2⟩
  else findYear (y + 1) (n - daysInYear y)
termination_by n
decreasing_by
  have h365 : 365 ≤ daysInYear y := by unfold daysInYear; split <;> omega
  omega

/-- Python date.fromordinal, modelled from its documented semantics (the
inverse of toordinal on the proleptic Gregorian calendar, ordinal 1
being 0001-01-01); applied by consecutive_nights (camping.py line 177)
before strftime when printing an option. -/
def fromordinal (n : Nat) : Date := findYear 1 (n - 1)

/-- Calendar validity of a date: positive year, month in 1..12, day in
1..daysInMonth.  Every date parsed from a real YYYY-MM-DD date string
satisfies this. -/
def ValidDate (d : Date) : Prop :=
  1 ≤ d.year ∧ 1 ≤ d.month ∧ d.month ≤ 12 ∧ 1 ≤ d.day ∧ d.day ≤ daysInMonth d.year d.month

instance (d : Date) : Decidable (ValidDate d) := by
  unfold ValidDate
  infer_instance

set_option maxHeartbeats 1000000 in
lemma daysBeforeYear_succ (y : Nat) (hy : 1 ≤ y) :
    daysBeforeYear (y + 1) = daysBeforeYear y + daysInYear y := by
  have hleap : isLeap y = true ↔ (y % 4 = 0 ∧ y % 100 ≠ 0) ∨ y % 400 = 0 := by
    simp [isLeap]
  unfold daysBeforeYear daysInYear
  by_cases h : isLeap y = true
  · rw [if_pos h]
    rw [hleap] at h
    omega
  · rw [if_neg h]
    rw [hleap] at h
    push_neg at h
    omega

lemma daysBeforeMonth_succ (y m : Nat) (hm : 1 ≤ m) :
    daysBeforeMonth y (m + 1) = daysBeforeMonth y m + daysInMonth y m := by
  match m, hm with
  | k + 1, _ => rfl

lemma daysBeforeMonth_13 (y : Nat) : daysBeforeMonth y 13 = daysInYear y := by
  cases h : isLeap y <;>
    simp [daysBeforeMonth, daysInMonth, daysInYear, h]

lemma daysBeforeMonth_mono (y : Nat) :
    ∀ m j : Nat, 1 ≤ j → j ≤ m → daysBeforeMonth y j ≤ daysBeforeMonth y m := by
  intro m
  induction m with
  | zero => intro j hj1 hj2; omega
  | succ m ihm =>
    intro j hj1 hj2
    rcases Nat.lt_or_ge j (m + 1) with hlt | hge
    · have hm1 : 1 ≤ m := by omega
      rw [daysBeforeMonth_succ y m hm1]
      have := ihm j hj1 (by omega)
      omega
    · have : j = m + 1 := by omega
      rw [this]

lemma daysBeforeMonth_day_le (y m d : Nat) (hm1 : 1 ≤ m) (hm2 : m ≤ 12)
    (hd : d ≤ daysInMonth y m) :
    daysBeforeMonth y m + d ≤ daysInYear y := by
  have h1 : daysBeforeMonth y m + daysInMonth y m = daysBeforeMonth y (m + 1) :=
    (daysBeforeMonth_succ y m hm1).symm
  have h2 : daysBeforeMonth y (m + 1) ≤ daysBeforeMonth y 13 :=
    daysBeforeMonth_mono y 13 (m + 1) (by omega) (by omega)
  rw [daysBeforeMonth_13] at h2
  omega

lemma findMonth_spec (y m d : Nat) (hm1 : 1 ≤ m) (hm2 : m ≤ 12) (hd1 : 1 ≤ d)
    (hd2 : d ≤ daysInMonth y m) :
    ∀ k j, 1 ≤ j → j + k = m →
      findMonth y j ((daysBeforeMonth y m - daysBeforeMonth y j) + (d - 1)) = (m, d) := by
  intro k
  induction k with
  | zero =>
    intro j hj1 hj2
    have hjm : j = m := by omega
    subst hjm
    rw [findMonth]
    simp only [Nat.sub_self, Nat.zero_add]
    by_cases h12 : 12 ≤ j
    · rw [if_pos h12]
      have hd3 : d - 1 + 1 = d := by omega
      rw [hd3]
    · rw [if_neg h12]
      rw [if_pos (by omega)]
      have hd3 : d - 1 + 1 = d := by omega
      rw [hd3]
  | succ k ih =>
    intro j hj1 hj2
    have hjm : j < m := by omega
    have hmono : daysBeforeMonth y (j + 1) ≤ daysBeforeMonth y m :=
      daysBeforeMonth_mono y m (j + 1) (by omega) (by omega)
    have hstep : daysBeforeMonth y (j + 1) = daysBeforeMonth y j + daysInMonth y j :=
      daysBeforeMonth_succ y j hj1
    rw [findMonth]
    rw [if_neg (by omega)]
    rw [if_neg (by omega)]
    have harg : daysBeforeMonth y m - daysBeforeMonth y j + (d - 1) - daysInMonth y j
        = daysBeforeMonth y m - daysBeforeMonth y (j + 1) + (d - 1) := by
      omega
    rw [harg]
    exact ih (j + 1) (by omega) (by omega)

lemma findYear_shift :
    ∀ (y : Nat), 1 ≤ y → ∀ n, findYear 1 (daysBeforeYear y + n) = findYear y n := by
  intro y
  induction y with
  | zero => intro h; omega
  | succ y ihy =>
    intro _ n
    rcases Nat.eq_zero_or_pos y with hy0 | hy1
    · subst hy0
      simp [daysBeforeYear]
    · rw [daysBeforeYear_succ y hy1]
      have hassoc : daysBeforeYear y + daysInYear y + n
          = daysBeforeYear y + (daysInYear y + n) := by omega
      rw [hassoc, ihy hy1 (daysInYear y + n)]
      rw [findYear]
      rw [if_neg (by omega)]
      have hsub : daysInYear y + n - daysInYear y = n := by omega
      rw [hsub]

/-- C8: date to ordinal to date round trip.  For every valid calendar
date, converting it to its proleptic Gregorian ordinal day number and
back yields the same date, so the parse/toordinal step and the
fromordinal/format step of the run reporter compose to the identity on
dates (the YYYY-MM-DD string form is in bijection with the date
triple). -/
theorem date_ordinal_roundtrip_C8 (d : Date) (h : ValidDate d) :
    fromordinal (toordinal d) = d := by
  obtain ⟨y, m, dd⟩ := d
  obtain ⟨hy, hm1, hm2, hd1, hd2⟩ := h
  dsimp only at hy hm1 hm2 hd1 hd2
  unfold toordinal fromordinal
  simp only
  have harith : daysBeforeYear y + daysBeforeMonth y m + dd - 1
      = daysBeforeYear y + (daysBeforeMonth y m + (dd - 1)) := by omega
  rw [harith, findYear_shift y hy]
  rw [findYear]
  have hlt : daysBeforeMonth y m + (dd - 1) < daysInYear y := by
    have := daysBeforeMonth_day_le y m dd hm1 hm2 hd2
    omega
  rw [if_pos hlt]
  have hfm : findMonth y 1 (daysBeforeMonth y m + (dd - 1)) = (m, dd) := by
    have h0 : daysBeforeMonth y 1 = 0 := rfl
    have hspec := findMonth_spec y m dd hm1 hm2 hd1 hd2 (m - 1) 1 (by omega) (by omega)
    rw [h0] at hspec
    simpa using hspec
  rw [hfm]

theorem date_ordinal_roundtrip_C8_witness :
    ValidDate ⟨2024, 6, 7⟩ ∧ fromordinal (toordinal ⟨2024, 6, 7⟩) = ⟨2024, 6, 7⟩ :=
  ⟨by decide, date_ordinal_roundtrip_C8 ⟨2024, 6, 7⟩ (by decide)⟩
